import Mathlib

/-!
Verification of the `hash_finder` program (src/main.rs).

The program searches positive integers for candidates whose SHA-256 digest
(lowercase hexadecimal text of the hash of the candidate's decimal string)
ends in at least `N` characters `'0'`, reporting `F` such matches.

This file embeds:
* SHA-256 (FIPS 180-4) over byte lists, modelling the `sha256` crate's
  `sha256::digest` applied to the candidate's decimal string;
* `process_hash` (src/main.rs lines 59-67), factored through
  `process_digest` (the body after the digest is computed);
* the dispatcher loop of `main` (src/main.rs lines 22-53) as a small-step
  transition system with nondeterministic worker completions.

All machine integers (`usize`) are modelled as `Nat` with explicit `% 2^64`
where an increment occurs.
-/

namespace HashFinder

/-- `2^32`, the modulus for 32-bit words of SHA-256. -/
def M32 : Nat := 4294967296

/-- `2^64`, the modulus of Rust `usize` on the 64-bit targets the program is
built for. -/
def M64 : Nat := 18446744073709551616

/-- Wrapping increment of a `usize` value (`x += 1` in release builds). -/
def usize_succ (n : Nat) : Nat := (n + 1) % M64

/-- Rotate a 32-bit word right by `n` bits. -/
def rotr32 (x n : Nat) : Nat := (x >>> n) ||| ((x <<< (32 - n)) % M32)

/-- SHA-256 Σ₀. -/
def bigSigma0 (x : Nat) : Nat := rotr32 x 2 ^^^ rotr32 x 13 ^^^ rotr32 x 22

/-- SHA-256 Σ₁. -/
def bigSigma1 (x : Nat) : Nat := rotr32 x 6 ^^^ rotr32 x 11 ^^^ rotr32 x 25

/-- SHA-256 σ₀. -/
def smallSigma0 (x : Nat) : Nat := rotr32 x 7 ^^^ rotr32 x 18 ^^^ (x >>> 3)

/-- SHA-256 σ₁. -/
def smallSigma1 (x : Nat) : Nat := rotr32 x 17 ^^^ rotr32 x 19 ^^^ (x >>> 10)

/-- SHA-256 Ch(x,y,z); `¬x` is `x ^^^ 0xffffffff` on 32-bit words. -/
def chf (x y z : Nat) : Nat := (x &&& y) ^^^ ((x ^^^ 4294967295) &&& z)

/-- SHA-256 Maj(x,y,z). -/
def majf (x y z : Nat) : Nat := (x &&& y) ^^^ (x &&& z) ^^^ (y &&& z)

/-- The 64 SHA-256 round constants (FIPS 180-4 §4.2.2, here in decimal). -/
def k256 : List Nat :=
  [1116352408, 1899447441, 3049323471, 3921009573, 961987163, 1508970993,
   2453635748, 2870763221, 3624381080, 310598401, 607225278, 1426881987,
   1925078388, 2162078206, 2614888103, 3248222580, 3835390401, 4022224774,
   264347078, 604807628, 770255983, 1249150122, 1555081692, 1996064986,
   2554220882, 2821834349, 2952996808, 3210313671, 3336571891, 3584528711,
   113926993, 338241895, 666307205, 773529912, 1294757372, 1396182291,
   1695183700, 1986661051, 2177026350, 2456956037, 2730485921, 2820302411,
   3259730800, 3345764771, 3516065817, 3600352804, 4094571909, 275423344,
   430227734, 506948616, 659060556, 883997877, 958139571, 1322822218,
   1537002063, 1747873779, 1955562222, 2024104815, 2227730452, 2361852424,
   2428436474, 2756734187, 3204031479, 3329325298]

/-- The eight 32-bit words of SHA-256 working state. -/
structure Words8 where
  a : Nat
  b : Nat
  c : Nat
  d : Nat
  e : Nat
  f : Nat
  g : Nat
  h : Nat
deriving DecidableEq

/-- SHA-256 initial hash value H⁽⁰⁾ (FIPS 180-4 §5.3.3, here in decimal). -/
def initHash : Words8 :=
  ⟨1779033703, 3144134277, 1013904242, 2773480762,
   1359893119, 2600822924, 528734635, 1541459225⟩

/-- One message-schedule extension step: appends the next word `W[t]`. -/
def scheduleStep (w : List Nat) : List Nat :=
  w ++ [(smallSigma1 (w.getD (w.length - 2) 0) + w.getD (w.length - 7) 0
         + smallSigma0 (w.getD (w.length - 15) 0) + w.getD (w.length - 16) 0) % M32]

/-- Extend the 16 block words to the 64-entry message schedule. -/
def schedule (w16 : List Nat) : List Nat :=
  (List.range 48).foldl (fun w _ => scheduleStep w) w16

/-- One SHA-256 compression round with key/schedule pair `kw`. -/
def sha_round (s : Words8) (kw : Nat × Nat) : Words8 :=
  let t1 := (s.h + bigSigma1 s.e + chf s.e s.f s.g + kw.1 + kw.2) % M32
  let t2 := (bigSigma0 s.a + majf s.a s.b s.c) % M32
  ⟨(t1 + t2) % M32, s.a, s.b, s.c, (s.d + t1) % M32, s.e, s.f, s.g⟩

/-- Compress one 16-word block into the chaining value. -/
def compress (hv : Words8) (block : List Nat) : Words8 :=
  let s := (k256.zip (schedule block)).foldl sha_round hv
  ⟨(hv.a + s.a) % M32, (hv.b + s.b) % M32, (hv.c + s.c) % M32, (hv.d + s.d) % M32,
   (hv.e + s.e) % M32, (hv.f + s.f) % M32, (hv.g + s.g) % M32, (hv.h + s.h) % M32⟩

/-- SHA-256 padding of a byte message: `0x80`, zeros to 56 mod 64, then the
bit length as 8 big-endian bytes. -/
def padBytes (msg : List Nat) : List Nat :=
  msg ++ [128] ++ List.replicate ((119 - (msg.length % 64)) % 64) 0
      ++ (List.range 8).map (fun i => (8 * msg.length >>> (56 - 8 * i)) % 256)

/-- The `j`-th big-endian 32-bit word of a byte list. -/
def wordAt (bytes : List Nat) (j : Nat) : Nat :=
  (bytes.getD (4 * j) 0 <<< 24) ||| (bytes.getD (4 * j + 1) 0 <<< 16) |||
    (bytes.getD (4 * j + 2) 0 <<< 8) ||| bytes.getD (4 * j + 3) 0

/-- SHA-256 of a byte message, as the final eight words. -/
def sha256_words (msg : List Nat) : Words8 :=
  let p := padBytes msg
  (List.range (p.length / 64)).foldl
    (fun acc j => compress acc ((List.range 16).map (fun i => wordAt p (16 * j + i)))) initHash

/-- The eight lowercase hex digits of a 32-bit word. -/
def toHex8 (w : Nat) : List Char :=
  (List.range 8).map (fun i => Nat.digitChar ((w >>> (28 - 4 * i)) % 16))

/-- SHA-256 of a byte message as its 64-character lowercase hex text; this is
what the `sha256` crate's `digest` returns. -/
def sha256_hex (msg : List Nat) : String :=
  let s := sha256_words msg
  ⟨toHex8 s.a ++ toHex8 s.b ++ toHex8 s.c ++ toHex8 s.d ++
   toHex8 s.e ++ toHex8 s.f ++ toHex8 s.g ++ toHex8 s.h⟩

/-- `sha256::digest(number.to_string())`: the digest of the candidate's
decimal text (src/main.rs line 60). -/
def digest_string (number : Nat) : String :=
  sha256_hex ((toString number).data.map Char.toNat)

/-- `Iterator::position(p)`: index of the first element satisfying `p`, or
`none` when there is no such element. -/
def position (p : Char → Bool) : List Char → Option Nat
  | [] => none
  | c :: rest => if p c then some 0 else (position p rest).map (fun i => i + 1)

/-- `hash.chars().rev().position(|i| i != '0')` (src/main.rs line 62): the
index, counted from the end of the digest, of the first character that is not
`'0'`. -/
def trailing_scan (hash : String) : Option Nat :=
  position (fun c => c != '0') hash.data.reverse

/-- The body of `process_hash` after the digest has been computed
(src/main.rs lines 62-66): send `(number, hash)` when the reverse scan finds
a non-`'0'` character at index `≥ nulls`, otherwise send nothing.  The
at-most-one send is modelled by the `Option` result. -/
def process_digest (number : Nat) (hash : String) (nulls : Nat) : Option (Nat × String) :=
  match trailing_scan hash with
  | some index => if nulls ≤ index then some (number, hash) else none
  | none => none

/-- `process_hash` (src/main.rs lines 59-67): digest the candidate's decimal
text and apply the trailing-zero check. -/
def process_hash (number : Nat) (nulls : Nat) : Option (Nat × String) :=
  process_digest number (digest_string number) nulls

/-- `process_hash` seen from the channel: `sent` is the list of messages
already enqueued, and the call appends its message when the check passes. -/
def process_hash_send (number nulls : Nat) (sent : List (Nat × String)) : List (Nat × String) :=
  match process_hash number nulls with
  | some msg => sent ++ [msg]
  | none => sent

/-- Spec-side predicate, following the spec's words: the digest text "ends in
`n` or more `'0'` characters", i.e. its last `n` characters exist and all of
them are `'0'`. -/
def ends_in_zeros (hash : String) (n : Nat) : Bool :=
  decide (n ≤ hash.data.length) && (hash.data.reverse.take n).all (fun c => c == '0')

/-- The 64-character digest text consisting only of `'0'` characters. -/
def allZero64 : String := ⟨List.replicate 64 '0'⟩

/-! ## The dispatcher loop of `main` (src/main.rs lines 22-53)

The `while` loop is modelled as a small-step system.  The dispatcher's
program counter is at the loop condition/submission phase (`check`), at the
`try_recv` phase (`recv`), or past the loop (`done`).  Worker-task
completions interleave nondeterministically at any point. -/

/-- Dispatcher program counter. -/
inductive Pc where
  | check : Pc
  | recv : Pc
  | done : Pc
deriving DecidableEq

/-- Startup configuration.  `F` is `max_complete_tasks = args.hashes as usize`
(so `F < 2^32`, `hashes` being a `u32`), `nulls` is `args.nulls as usize`.
`cur_threads` is the value returned by `rayon::current_num_threads()` — the
thread-pool size, a constant for the whole run — and `max_threads` the value
of `rayon::max_num_threads()`, rayon's global thread cap, also a constant. -/
structure Config where
  F : Nat
  nulls : Nat
  cur_threads : Nat
  max_threads : Nat
deriving DecidableEq

/-- Dispatcher-visible state: the two `usize` counters, the multiset of
submitted-but-unresolved candidates, the channel's pending queue, the lines
printed so far, the history of submissions, and the program counter. -/
structure State where
  current_number : Nat
  complete_tasks : Nat
  inFlight : List Nat
  channel : List (Nat × String)
  output : List (Nat × String)
  submitted : List Nat
  pc : Pc
deriving DecidableEq

/-- Initial state: `current_number = 1`, `complete_tasks = 0`, nothing
submitted, empty channel. -/
def initState : State := ⟨1, 0, [], [], [], [], Pc.check⟩

/-- The loop-condition and submission phase: if `complete_tasks <
max_complete_tasks` the body runs — it spawns `process_hash(current_number)`
and increments `current_number` when `rayon::current_num_threads() <
rayon::max_num_threads()`, and otherwise only sleeps — then control reaches
the `try_recv`; if the condition fails the loop exits. -/
def checkStep (cfg : Config) (s : State) : State :=
  if s.complete_tasks < cfg.F then
    if cfg.cur_threads < cfg.max_threads then
      { s with inFlight := s.inFlight ++ [s.current_number],
               submitted := s.submitted ++ [s.current_number],
               current_number := usize_succ s.current_number,
               pc := Pc.recv }
    else
      { s with pc := Pc.recv }
  else
    { s with pc := Pc.done }

/-- The `rx.try_recv()` phase: pop one pending result if present, print it
and increment `complete_tasks`; otherwise do nothing. -/
def recvStep (s : State) : State :=
  match s.channel with
  | msg :: rest =>
      { s with channel := rest, output := s.output ++ [msg],
               complete_tasks := usize_succ s.complete_tasks, pc := Pc.check }
  | [] => { s with pc := Pc.check }

/-- A worker task finishing: candidate `i` of the in-flight list resolves;
when `process_hash` passes, its message is enqueued on the channel. -/
def workerStep (cfg : Config) (s : State) (i : Nat) : State :=
  match process_hash (s.inFlight.getD i 0) cfg.nulls with
  | some msg => { s with inFlight := s.inFlight.eraseIdx i, channel := s.channel ++ [msg] }
  | none => { s with inFlight := s.inFlight.eraseIdx i }

/-- One step of the whole system: a dispatcher phase at its program counter,
or any in-flight worker resolving. -/
inductive Step (cfg : Config) : State → State → Prop where
  | check (s : State) : s.pc = Pc.check → Step cfg s (checkStep cfg s)
  | recv (s : State) : s.pc = Pc.recv → Step cfg s (recvStep s)
  | worker (s : State) (i : Nat) : i < s.inFlight.length → Step cfg s (workerStep cfg s i)

/-- States reachable from startup. -/
inductive Reachable (cfg : Config) : State → Prop where
  | init : Reachable cfg initState
  | next {s t : State} : Reachable cfg s → Step cfg s t → Reachable cfg t

/-! ## Invariants of the dispatcher -/

lemma usize_succ_eq {n : Nat} (h : n + 1 < M64) : usize_succ n = n + 1 :=
  Nat.mod_eq_of_lt h

/-- Invariant for the match counter: it never exceeds `F`, it is strictly
below `F` whenever the `try_recv` phase may run, and it equals `F` once the
loop has exited. -/
def InvC3 (cfg : Config) (s : State) : Prop :=
  s.complete_tasks ≤ cfg.F ∧ (s.pc = Pc.recv → s.complete_tasks < cfg.F) ∧
    (s.pc = Pc.done → s.complete_tasks = cfg.F)

/-- A worker completion never touches the dispatcher's counters, output,
submission history or program counter. -/
lemma workerStep_fields (cfg : Config) (s : State) (i : Nat) :
    (workerStep cfg s i).complete_tasks = s.complete_tasks
    ∧ (workerStep cfg s i).pc = s.pc
    ∧ (workerStep cfg s i).submitted = s.submitted
    ∧ (workerStep cfg s i).output = s.output
    ∧ (workerStep cfg s i).current_number = s.current_number := by
  unfold workerStep
  split <;> exact ⟨rfl, rfl, rfl, rfl, rfl⟩

/-- On an empty channel, `try_recv` returns `Err` and the phase changes
nothing but the program counter. -/
lemma recvStep_channel_nil_fields {s : State} (h : s.channel = []) :
    (recvStep s).pc = Pc.check
    ∧ (recvStep s).complete_tasks = s.complete_tasks
    ∧ (recvStep s).submitted = s.submitted
    ∧ (recvStep s).inFlight = s.inFlight
    ∧ (recvStep s).channel = []
    ∧ (recvStep s).current_number = s.current_number
    ∧ (recvStep s).output = s.output := by
  unfold recvStep
  rw [h]
  exact ⟨rfl, rfl, rfl, rfl, rfl, rfl, rfl⟩

/-- The `try_recv` phase never changes the submission history or the
candidate counter, and always returns to the loop head. -/
lemma recvStep_fields (s : State) :
    (recvStep s).pc = Pc.check
    ∧ (recvStep s).submitted = s.submitted
    ∧ (recvStep s).current_number = s.current_number
    ∧ (recvStep s).inFlight = s.inFlight := by
  unfold recvStep
  split <;> exact ⟨rfl, rfl, rfl, rfl⟩

lemma invC3_reachable {cfg : Config} (hF : cfg.F < 4294967296) {s : State}
    (h : Reachable cfg s) : InvC3 cfg s := by
  induction h with
  | init => refine ⟨Nat.zero_le _, ?_, ?_⟩ <;> intro hpc <;> simp [initState] at hpc
  | next hreach hstep ih =>
    rename_i s t
    obtain ⟨hle, hrecv, hdone⟩ := ih
    cases hstep with
    | check hpc =>
      unfold checkStep
      split_ifs with h1 h2
      · exact ⟨hle, fun _ => h1, fun hd => by simp at hd⟩
      · exact ⟨hle, fun _ => h1, fun hd => by simp at hd⟩
      · exact ⟨hle, fun hr => by simp at hr, fun _ => Nat.le_antisymm hle (Nat.le_of_not_lt h1)⟩
    | recv hpc =>
      have hlt : s.complete_tasks < cfg.F := hrecv hpc
      have hsucc : usize_succ s.complete_tasks = s.complete_tasks + 1 :=
        usize_succ_eq (by unfold M64; omega)
      unfold recvStep
      split
      · exact ⟨by simpa [hsucc] using hlt, fun hr => by simp at hr, fun hd => by simp at hd⟩
      · exact ⟨hle, fun hr => by simp at hr, fun hd => by simp at hd⟩
    | worker i hi =>
      obtain ⟨h1, h2, h3, h4, h5⟩ := workerStep_fields cfg s i
      exact ⟨h1 ▸ hle, fun hr => h1 ▸ hrecv (h2 ▸ hr), fun hd => h1 ▸ hdone (h2 ▸ hd)⟩

/-- A step that enlarges the submission history can only be a `checkStep`
taken while `complete_tasks < F`. -/
lemma submitted_grows {cfg : Config} {s t : State} (h : Step cfg s t)
    (hlt : s.submitted.length < t.submitted.length) : s.complete_tasks < cfg.F := by
  cases h with
  | check hpc =>
    by_contra hge
    unfold checkStep at hlt
    rw [if_neg hge] at hlt
    simp at hlt
  | recv hpc =>
    rw [(recvStep_fields s).2.1] at hlt
    simp at hlt
  | worker i hi =>
    rw [(workerStep_fields cfg s i).2.2.1] at hlt
    simp at hlt

/-- C3: the dispatcher loop terminates exactly when `complete_tasks` equals
`F` and never before; in every reachable state `complete_tasks ≤ F`; once the
count is reached the loop-head step exits without submitting, and no step at
all submits unless `complete_tasks < F`. -/
theorem thm_c3 (cfg : Config) (s : State) (hF : cfg.F < 4294967296)
    (hs : Reachable cfg s) :
    s.complete_tasks ≤ cfg.F
    ∧ (s.pc = Pc.done → s.complete_tasks = cfg.F)
    ∧ (s.pc = Pc.check → cfg.F ≤ s.complete_tasks →
        (checkStep cfg s).pc = Pc.done ∧ (checkStep cfg s).submitted = s.submitted)
    ∧ (∀ t, Step cfg s t → s.submitted.length < t.submitted.length →
        s.complete_tasks < cfg.F) := by
  obtain ⟨hle, _, hdone⟩ := invC3_reachable hF hs
  refine ⟨hle, hdone, ?_, fun t hstep hgrow => submitted_grows hstep hgrow⟩
  intro _ hge
  unfold checkStep
  rw [if_neg (Nat.not_lt.mpr hge)]
  exact ⟨rfl, rfl⟩

/-- Witness for C3 at the start state of a concrete configuration. -/
theorem thm_c3_witness :
    (2 : Nat) < 4294967296 ∧ Reachable ⟨2, 3, 4, 65535⟩ initState ∧
    (initState.complete_tasks ≤ 2
     ∧ (initState.pc = Pc.done → initState.complete_tasks = 2)
     ∧ (initState.pc = Pc.check → 2 ≤ initState.complete_tasks →
         (checkStep ⟨2, 3, 4, 65535⟩ initState).pc = Pc.done
         ∧ (checkStep ⟨2, 3, 4, 65535⟩ initState).submitted = initState.submitted)
     ∧ (∀ t, Step ⟨2, 3, 4, 65535⟩ initState t →
         initState.submitted.length < t.submitted.length →
         initState.complete_tasks < 2)) :=
  ⟨by decide, Reachable.init, thm_c3 ⟨2, 3, 4, 65535⟩ initState (by decide) Reachable.init⟩

/-- With `F = 0` the loop body never runs: no output, no submission, no
worker, and the `try_recv` phase is never entered. -/
lemma invC4_reachable {cfg : Config} (h0 : cfg.F = 0) {s : State}
    (h : Reachable cfg s) :
    s.output = [] ∧ s.submitted = [] ∧ s.inFlight = [] ∧ s.channel = [] ∧
      s.pc ≠ Pc.recv := by
  induction h with
  | init => exact ⟨rfl, rfl, rfl, rfl, by simp [initState]⟩
  | next hreach hstep ih =>
    rename_i s t
    obtain ⟨hout, hsub, hfl, hch, hpc⟩ := ih
    cases hstep with
    | check hpcs =>
      unfold checkStep
      rw [if_neg (by omega)]
      exact ⟨hout, hsub, hfl, hch, by simp⟩
    | recv hpcs => exact absurd hpcs hpc
    | worker i hi => rw [hfl] at hi; simp at hi

/-- C4: with target count `F = 0` the dispatcher terminates immediately: the
very first loop-head step exits the loop, and every reachable state has
empty output and an empty submission history. -/
theorem thm_c4 (cfg : Config) (s : State) (h0 : cfg.F = 0) (hs : Reachable cfg s) :
    s.output = [] ∧ s.submitted = [] ∧ (checkStep cfg initState).pc = Pc.done := by
  obtain ⟨hout, hsub, _, _, _⟩ := invC4_reachable h0 hs
  refine ⟨hout, hsub, ?_⟩
  unfold checkStep
  rw [if_neg (by simp [initState, h0])]

/-- Witness for C4 at the start state of a concrete `F = 0` configuration. -/
theorem thm_c4_witness :
    (⟨0, 3, 4, 65535⟩ : Config).F = 0 ∧ Reachable ⟨0, 3, 4, 65535⟩ initState ∧
    (initState.output = [] ∧ initState.submitted = [] ∧
      (checkStep ⟨0, 3, 4, 65535⟩ initState).pc = Pc.done) :=
  ⟨rfl, Reachable.init, thm_c4 ⟨0, 3, 4, 65535⟩ initState rfl Reachable.init⟩

/-- The candidate counter is always the wrapped successor of the number of
submissions made so far, and the submission history is exactly the wrapped
values `1, 2, 3, …` in order (src/main.rs lines 25, 39-42). -/
lemma counter_inv {cfg : Config} {s : State} (h : Reachable cfg s) :
    s.current_number = (1 + s.submitted.length) % M64
    ∧ s.submitted = (List.range s.submitted.length).map (fun i => (1 + i) % M64) := by
  induction h with
  | init => exact ⟨by decide, rfl⟩
  | next hreach hstep ih =>
    rename_i s t
    obtain ⟨hcur, hsub⟩ := ih
    cases hstep with
    | check hpcs =>
      unfold checkStep
      split_ifs with h1 h2
      · refine ⟨?_, ?_⟩
        · simp only [List.length_append, List.length_cons, List.length_nil]
          rw [hcur]
          unfold usize_succ
          rw [Nat.mod_add_mod]
          congr 1
        · simp only [List.length_append, List.length_cons, List.length_nil]
          rw [List.range_succ, List.map_append, ← hsub, List.map_cons, List.map_nil, hcur]
      · exact ⟨hcur, hsub⟩
      · exact ⟨hcur, hsub⟩
    | recv hpcs =>
      obtain ⟨_, h2, h3, _⟩ := recvStep_fields s
      rw [h2, h3]
      exact ⟨hcur, hsub⟩
    | worker i hi =>
      obtain ⟨_, _, h3, _, h5⟩ := workerStep_fields cfg s i
      rw [h3, h5]
      exact ⟨hcur, hsub⟩

/-! ## Properties of the reverse scan -/

lemma position_eq_none {p : Char → Bool} : ∀ {l : List Char},
    position p l = none ↔ ∀ c ∈ l, p c = false := by
  intro l
  induction l with
  | nil => simp [position]
  | cons c rest ih =>
    by_cases hc : p c
    · simp [position, hc]
    · simp [position, hc, Option.map_eq_none', ih]

lemma position_some_mem {p : Char → Bool} : ∀ {l : List Char} {i : Nat},
    position p l = some i → ∃ c ∈ l, p c = true := by
  intro l
  induction l with
  | nil => intro i h; simp [position] at h
  | cons c rest ih =>
    intro i h
    by_cases hc : p c
    · exact ⟨c, List.mem_cons_self c rest, hc⟩
    · simp only [position, if_neg hc, Option.map_eq_some'] at h
      obtain ⟨j, hj, _⟩ := h
      obtain ⟨d, hd, hpd⟩ := ih hj
      exact ⟨d, List.mem_cons_of_mem c hd, hpd⟩

/-- The index returned by `position` characterises which prefixes consist
only of elements rejected by `p`. -/
lemma position_some_take {p : Char → Bool} : ∀ {l : List Char} {i : Nat},
    position p l = some i →
    ∀ n : Nat, (n ≤ l.length ∧ (l.take n).all (fun c => !(p c)) = true) ↔ n ≤ i := by
  intro l
  induction l with
  | nil => intro i h; simp [position] at h
  | cons c rest ih =>
    intro i h n
    by_cases hc : p c
    · simp only [position, if_pos hc, Option.some.injEq] at h
      subst h
      cases n with
      | zero => simp
      | succ m => simp [hc]
    · simp only [position, if_neg hc, Option.map_eq_some'] at h
      obtain ⟨j, hj, hij⟩ := h
      subst hij
      cases n with
      | zero => simp
      | succ m =>
        have := ih hj m
        simp only [List.length_cons, List.take_succ_cons, List.all_cons, hc,
          Bool.not_false, Bool.true_and, Nat.succ_le_succ_iff]
        exact this

lemma trailing_scan_none_iff {hash : String} :
    trailing_scan hash = none ↔ ∀ c ∈ hash.data, c = '0' := by
  unfold trailing_scan
  rw [position_eq_none]
  constructor
  · intro h c hc
    simpa using h c (List.mem_reverse.mpr hc)
  · intro h c hc
    simp [h c (List.mem_reverse.mp hc)]

lemma scan_some_mem {hash : String} {i : Nat} (h : trailing_scan hash = some i) :
    ∃ ch ∈ hash.data, ch ≠ '0' := by
  obtain ⟨c, hc, hpc⟩ := position_some_mem h
  exact ⟨c, List.mem_reverse.mp hc, by simpa using hpc⟩

/-- When the reverse scan finds a first non-`'0'` at index `i`, the digest
"ends in `n` or more `'0'` characters" exactly for `n ≤ i`: the scan index
is the length of the trailing run of `'0'`. -/
lemma scan_some_ends {hash : String} {i : Nat} (h : trailing_scan hash = some i)
    (n : Nat) : ends_in_zeros hash n = true ↔ n ≤ i := by
  have hiff := position_some_take h n
  rw [List.length_reverse] at hiff
  unfold ends_in_zeros
  rw [Bool.and_eq_true, decide_eq_true_eq]
  have hpred : ∀ c : Char, (!(c != '0')) = (c == '0') := by
    intro c; simp [bne]
  simp only [hpred] at hiff
  exact hiff

lemma process_digest_none {number : Nat} {hash : String} {nulls : Nat}
    (h : trailing_scan hash = none) : process_digest number hash nulls = none := by
  unfold process_digest
  rw [h]

lemma process_digest_some {number : Nat} {hash : String} {nulls i : Nat}
    (h : trailing_scan hash = some i) :
    process_digest number hash nulls = if nulls ≤ i then some (number, hash) else none := by
  unfold process_digest
  rw [h]

/-! ## Claims about the digest evaluator -/

/-- C1 (amended): `process_hash` sends the single pair `(c, digest)` if and
only if the digest of `c`'s decimal text ends in `N` or more `'0'` characters
AND contains at least one non-`'0'` character; it sends nothing otherwise.
(The unamended claim omits the second conjunct; it fails on an all-`'0'`
digest, where the reverse scan returns `None` and nothing is sent even
though the trailing-zero condition holds — see the counterexample.) -/
theorem thm_c1 (c N : Nat) :
    (process_hash c N = some (c, digest_string c) ↔
      (ends_in_zeros (digest_string c) N = true ∧ ∃ ch ∈ (digest_string c).data, ch ≠ '0'))
    ∧ (process_hash c N = none ∨ process_hash c N = some (c, digest_string c)) := by
  unfold process_hash
  cases hscan : trailing_scan (digest_string c) with
  | none =>
    rw [process_digest_none hscan]
    have hall := trailing_scan_none_iff.mp hscan
    refine ⟨⟨fun h => by simp at h, ?_⟩, Or.inl rfl⟩
    rintro ⟨_, ch, hmem, hne⟩
    exact absurd (hall ch hmem) hne
  | some i =>
    rw [process_digest_some hscan]
    have hends := scan_some_ends hscan
    by_cases hN : N ≤ i
    · rw [if_pos hN]
      exact ⟨⟨fun _ => ⟨(hends N).mpr hN, scan_some_mem hscan⟩, fun _ => rfl⟩, Or.inr rfl⟩
    · rw [if_neg hN]
      refine ⟨⟨fun h => by simp at h, ?_⟩, Or.inl rfl⟩
      rintro ⟨hz, _⟩
      exact absurd ((hends N).mp hz) hN

/-- Witness for C1: candidate 4163 at threshold 3 satisfies the amended
condition and is sent. -/
theorem thm_c1_witness : process_hash 4163 3 = some (4163, digest_string 4163) :=
  (thm_c1 4163 3).1.mpr ⟨by decide, by decide⟩

/-- Counterexample for C1 as stated: on the all-`'0'` digest the evaluator's
digest check sends nothing although the digest ends in 3 (indeed 64) `'0'`
characters, so "sends iff the digest ends in `N` or more zeros" is false for
the code's check. -/
theorem thm_c1_cx :
    process_digest 7 allZero64 3 = none ∧ ends_in_zeros allZero64 3 = true :=
  ⟨by decide, by decide⟩

/-- C2 (amended): at threshold `N = 0`, `process_hash` sends the pair for
every candidate whose digest contains at least one non-`'0'` character (the
scan then yields an index `≥ 0`).  The unamended "every candidate, because
the scan always yields an index" fails on an all-`'0'` digest. -/
theorem thm_c2 (c : Nat) (h : ∃ ch ∈ (digest_string c).data, ch ≠ '0') :
    process_hash c 0 = some (c, digest_string c) := by
  unfold process_hash
  cases hscan : trailing_scan (digest_string c) with
  | none =>
    obtain ⟨ch, hmem, hne⟩ := h
    exact absurd (trailing_scan_none_iff.mp hscan ch hmem) hne
  | some i =>
    rw [process_digest_some hscan, if_pos (Nat.zero_le i)]

/-- Witness for C2 at candidate 1. -/
theorem thm_c2_witness :
    (∃ ch ∈ (digest_string 1).data, ch ≠ '0') ∧
      process_hash 1 0 = some (1, digest_string 1) :=
  ⟨by decide, thm_c2 1 (by decide)⟩

/-- Counterexample for C2's justification as stated: on the all-`'0'` digest
the scan for the first non-zero character yields no index at all (`none`,
not an index `≥ 0`), and the evaluator's check sends nothing at `N = 0`. -/
theorem thm_c2_cx :
    trailing_scan allZero64 = none ∧ process_digest 2 allZero64 0 = none :=
  ⟨by decide, by decide⟩

/-- C7: the two concrete scenarios of the spec and the repository's tests:
candidate 4163 at threshold 3 and candidate 828028 at threshold 5 are sent
with exactly the claimed digest texts. -/
theorem thm_c7 :
    process_hash 4163 3 =
      some (4163, "95d4362bd3cd4315d0bbe38dfa5d7fb8f0aed5f1a31d98d510907279194e3000")
    ∧ process_hash 828028 5 =
      some (828028, "d95f19b5269418c0d4479fa61b8e7696aa8df197082b431a65ff37595c100000") :=
  ⟨by decide, by decide⟩

/-- C8: the evaluation is a deterministic pure function of
`(candidate, threshold)`: what a call appends to the channel is the same
list (at most one message, with identical digest text) regardless of what
was already sent, so two calls with the same arguments enqueue identical
messages. -/
theorem thm_c8 (c N : Nat) (q : List (Nat × String)) :
    process_hash_send c N q = q ++ process_hash_send c N []
    ∧ (process_hash_send c N []).length ≤ 1 := by
  unfold process_hash_send
  cases hph : process_hash c N <;> simp

/-- Witness for C8 on a concrete prior channel content. -/
theorem thm_c8_witness :
    process_hash_send 4163 3 [(9, "prior")] =
      [(9, "prior")] ++ process_hash_send 4163 3 []
    ∧ (process_hash_send 4163 3 []).length ≤ 1 :=
  thm_c8 4163 3 [(9, "prior")]

/-- C10: `process_hash` is the digest check applied to the candidate's
digest, and on a digest consisting only of `'0'` characters the check sends
nothing, for every threshold (the reverse scan returns `None`). -/
theorem thm_c10 (number nulls : Nat) (hash : String) :
    process_hash number nulls = process_digest number (digest_string number) nulls
    ∧ ((∀ ch ∈ hash.data, ch = '0') → process_digest number hash nulls = none) :=
  ⟨rfl, fun hall => process_digest_none (trailing_scan_none_iff.mpr hall)⟩

/-- Witness for C10 on the all-`'0'` 64-character digest at threshold 0. -/
theorem thm_c10_witness :
    (∀ ch ∈ allZero64.data, ch = '0') ∧ process_digest 1 allZero64 0 = none :=
  ⟨by decide, (thm_c10 1 0 allZero64).2 (by decide)⟩

/-! ## Submission ordering, capacity and counter wrap -/

/-- C5 (amended): as long as fewer than `2^64` submissions have been made
(i.e. before the `usize` candidate counter wraps), the submission history is
exactly `1, 2, 3, …` — strictly increasing, starting at 1, each value at
most once.  The unamended "across the whole run" fails once the counter
wraps — see the counterexample. -/
theorem thm_c5 (cfg : Config) (s : State) (hs : Reachable cfg s)
    (hlen : s.submitted.length < M64) :
    s.submitted = List.range' 1 s.submitted.length
    ∧ List.Pairwise (· < ·) s.submitted := by
  obtain ⟨_, hsub⟩ := counter_inv hs
  have hmap : (List.range s.submitted.length).map (fun i => (1 + i) % M64)
      = (List.range s.submitted.length).map (fun i => 1 + i) := by
    apply List.map_congr_left
    intro i hi
    rw [List.mem_range] at hi
    exact Nat.mod_eq_of_lt (by omega)
  have heq : s.submitted = List.range' 1 s.submitted.length := by
    conv_lhs => rw [hsub, hmap]
    rw [List.range'_eq_map_range]
  refine ⟨heq, ?_⟩
  rw [heq]
  exact List.pairwise_lt_range' 1 s.submitted.length

/-- Witness for C5 at the start state. -/
theorem thm_c5_witness :
    Reachable ⟨2, 3, 4, 65535⟩ initState ∧ initState.submitted.length < M64 ∧
    (initState.submitted = List.range' 1 initState.submitted.length
     ∧ List.Pairwise (· < ·) initState.submitted) :=
  ⟨Reachable.init, by decide,
    thm_c5 ⟨2, 3, 4, 65535⟩ initState Reachable.init (by decide)⟩

/-- The configuration used for the long spinning run and for the capacity
counterexample: `F = 1` (the loop never completes a match in this trace),
threshold 0, a one-thread pool, and rayon's cap at 2 (any value above the
pool size gives the same behaviour, since the code compares these two
constants). -/
def spinCfg : Config := ⟨1, 0, 1, 2⟩

/-- The deterministic run in which the dispatcher iterates its loop without
any worker ever completing: each iteration is one loop-head step (which
spawns) followed by one empty `try_recv` step. -/
def spin : Nat → State
  | 0 => initState
  | k + 1 => recvStep (checkStep spinCfg (spin k))

lemma spin_invariant (k : Nat) :
    Reachable spinCfg (spin k)
    ∧ (spin k).pc = Pc.check ∧ (spin k).complete_tasks = 0
    ∧ (spin k).channel = [] ∧ (spin k).submitted.length = k
    ∧ (spin k).inFlight.length = k := by
  induction k with
  | zero => exact ⟨Reachable.init, rfl, rfl, rfl, rfl, rfl⟩
  | succ k ih =>
    obtain ⟨hreach, hpc, hct, hch, hlen, hfl⟩ := ih
    have hcheck : checkStep spinCfg (spin k)
        = { spin k with
            inFlight := (spin k).inFlight ++ [(spin k).current_number],
            submitted := (spin k).submitted ++ [(spin k).current_number],
            current_number := usize_succ (spin k).current_number,
            pc := Pc.recv } := by
      unfold checkStep
      rw [if_pos (by rw [hct]; decide), if_pos (by decide)]
    have hcch : (checkStep spinCfg (spin k)).channel = [] := by rw [hcheck]; exact hch
    have hfields := recvStep_channel_nil_fields hcch
    have hreach' : Reachable spinCfg (spin (k + 1)) := by
      rw [show spin (k + 1) = recvStep (checkStep spinCfg (spin k)) from rfl]
      refine Reachable.next (Reachable.next hreach (Step.check _ hpc)) (Step.recv _ ?_)
      rw [hcheck]
    refine ⟨hreach', hfields.1, ?_, hfields.2.2.2.2.1, ?_, ?_⟩
    · show (recvStep (checkStep spinCfg (spin k))).complete_tasks = 0
      rw [hfields.2.1, hcheck]
      exact hct
    · show (recvStep (checkStep spinCfg (spin k))).submitted.length = k + 1
      rw [hfields.2.2.1, hcheck]
      simp [hlen]
    · show (recvStep (checkStep spinCfg (spin k))).inFlight.length = k + 1
      rw [hfields.2.2.2.1, hcheck]
      simp [hfl]

/-- Counterexample for C5 as stated: after `2^64` submissions (a reachable
state of the model, since the loop spins while no result ever arrives) the
`usize` counter has wrapped and the submission history is no longer strictly
increasing. -/
theorem thm_c5_cx :
    Reachable spinCfg (spin M64) ∧ ¬ List.Pairwise (· < ·) (spin M64).submitted := by
  obtain ⟨hreach, _, _, _, hlen, _⟩ := spin_invariant M64
  obtain ⟨_, hsub⟩ := counter_inv hreach
  rw [hlen] at hsub
  refine ⟨hreach, fun hpw => ?_⟩
  rw [hsub, List.pairwise_iff_getElem] at hpw
  have hM : M64 = 18446744073709551616 := rfl
  have hlen' : ((List.range M64).map (fun i => (1 + i) % M64)).length = M64 := by simp
  have hx := hpw 0 (M64 - 1) (by rw [hlen', hM]; omega) (by rw [hlen', hM]; omega)
    (by rw [hM]; omega)
  simp only [List.getElem_map, List.getElem_range] at hx
  rw [hM] at hx
  omega

/-- C9 (amended): as long as the dispatcher has made fewer than `2^64 - 1`
submissions, the candidate counter is the exact successor of the number of
submissions: `current_number = 1 + #submissions`.  The unamended "for every
number of submissions" fails at `2^64 - 1` submissions, where the `usize`
counter silently wraps to 0 — see the counterexample. -/
theorem thm_c9 (cfg : Config) (s : State) (hs : Reachable cfg s)
    (hlen : s.submitted.length + 1 < M64) :
    s.current_number = 1 + s.submitted.length := by
  obtain ⟨hcur, _⟩ := counter_inv hs
  rw [hcur]
  exact Nat.mod_eq_of_lt (by omega)

/-- Witness for C9 at the start state. -/
theorem thm_c9_witness :
    Reachable ⟨2, 3, 4, 65535⟩ initState ∧ initState.submitted.length + 1 < M64 ∧
    initState.current_number = 1 + initState.submitted.length :=
  ⟨Reachable.init, by decide,
    thm_c9 ⟨2, 3, 4, 65535⟩ initState Reachable.init (by decide)⟩

/-- Counterexample for C9 as stated: in the reachable state after
`2^64 - 1` submissions the candidate counter is 0, not the exact successor
`1 + (2^64 - 1)` — the `usize` increment has silently wrapped. -/
theorem thm_c9_cx :
    Reachable spinCfg (spin (M64 - 1))
    ∧ (spin (M64 - 1)).submitted.length = M64 - 1
    ∧ (spin (M64 - 1)).current_number = 0
    ∧ 0 ≠ 1 + (M64 - 1) := by
  obtain ⟨hreach, _, _, _, hlen, _⟩ := spin_invariant (M64 - 1)
  obtain ⟨hcur, _⟩ := counter_inv hreach
  have hM : M64 = 18446744073709551616 := rfl
  refine ⟨hreach, hlen, ?_, by rw [hM]; omega⟩
  rw [hcur, hlen]
  decide

/-- C6 is refuted by the code: the spawn guard compares the constant pool
size (`rayon::current_num_threads()`) with rayon's constant global cap
(`rayon::max_num_threads()`), not the in-flight count with the capacity.
Here, with a pool capacity of 1, the state after one full loop iteration —
one task in flight, none resolved — is reachable, and the next loop-head
step submits again even though the in-flight count (1) is not below the
capacity (1), leaving 2 outstanding tasks, more than the capacity. -/
theorem thm_c6 :
    Reachable spinCfg ⟨2, 0, [1], [], [], [1], Pc.check⟩
    ∧ Step spinCfg ⟨2, 0, [1], [], [], [1], Pc.check⟩ ⟨3, 0, [1, 2], [], [], [1, 2], Pc.recv⟩
    ∧ ¬ ((⟨2, 0, [1], [], [], [1], Pc.check⟩ : State).inFlight.length < spinCfg.cur_threads)
    ∧ (⟨3, 0, [1, 2], [], [], [1, 2], Pc.recv⟩ : State).inFlight.length > spinCfg.cur_threads
    ∧ (⟨3, 0, [1, 2], [], [], [1, 2], Pc.recv⟩ : State).submitted.length
        = (⟨2, 0, [1], [], [], [1], Pc.check⟩ : State).submitted.length + 1 := by
  have h1 : checkStep spinCfg initState = ⟨2, 0, [1], [], [], [1], Pc.recv⟩ := by decide
  have h2 : recvStep ⟨2, 0, [1], [], [], [1], Pc.recv⟩
      = ⟨2, 0, [1], [], [], [1], Pc.check⟩ := by decide
  have h3 : checkStep spinCfg ⟨2, 0, [1], [], [], [1], Pc.check⟩
      = ⟨3, 0, [1, 2], [], [], [1, 2], Pc.recv⟩ := by decide
  refine ⟨?_, ?_, by decide, by decide, by decide⟩
  · have r1 : Reachable spinCfg (checkStep spinCfg initState) :=
      Reachable.next Reachable.init (Step.check initState rfl)
    rw [h1] at r1
    have r2 : Reachable spinCfg (recvStep ⟨2, 0, [1], [], [], [1], Pc.recv⟩) :=
      Reachable.next r1 (Step.recv _ rfl)
    rw [h2] at r2
    exact r2
  · have hstep := @Step.check spinCfg ⟨2, 0, [1], [], [], [1], Pc.check⟩ rfl
    rw [h3] at hstep
    exact hstep

end HashFinder
